import Mathlib

/-!
# Verification of the JPVocabHelper vocabulary-extraction pipeline

Shallow embedding of `backend/services/epub_processor.py`,
`backend/services/anki_parser.py` and the `upload_epub` route of
`backend/app.py`.  Text is modelled as `List Char` (Python strings are
sequences of code points, and Python `len` counts code points, as does
`List.length` on `List Char`).  External collaborators (the janome
tokenizer, the lxml HTML parser, `html.unescape`, the md5 fingerprint)
are parameters of the embedded functions, as the spec directs
(§6 "External interfaces").
-/

/-- Code points of a string literal; Python strings are code-point sequences. -/
def lc (s : String) : List Char := s.data

/-- Whitespace for Python `str.strip()` (ASCII whitespace plus the Unicode
space characters Python's `str.isspace` recognises, notably U+3000). -/
def isPySpace (c : Char) : Bool :=
  c = ' ' || c = '\t' || c = '\n' || c = '\r' || c = '\x0b' || c = '\x0c' ||
  c.toNat = 0x1c || c.toNat = 0x1d || c.toNat = 0x1e || c.toNat = 0x1f ||
  c.toNat = 0x85 || c.toNat = 0xa0 || c.toNat = 0x1680 ||
  (0x2000 ≤ c.toNat && c.toNat ≤ 0x200a) ||
  c.toNat = 0x2028 || c.toNat = 0x2029 || c.toNat = 0x202f ||
  c.toNat = 0x205f || c.toNat = 0x3000

/-- Python `str.strip()`: drop leading and trailing whitespace. -/
def pyStrip (l : List Char) : List Char :=
  ((l.dropWhile isPySpace).reverse.dropWhile isPySpace).reverse

/-- Python substring test `needle in hay` (`'非自立' not in pos` in the source). -/
def containsSeq (needle : List Char) : List Char → Bool
  | [] => needle.isEmpty
  | c :: rest => needle.isPrefixOf (c :: rest) || containsSeq needle rest

/-!
## Document extraction (`extract_chapters_from_epub`)

The lxml DOM is modelled as a rose tree of elements and text nodes.
`lxml.html.fromstring` is an external parser, passed in as a parameter of
type `List Char → Except (List Char) (List HNode)` (returning the child
list of the parsed root); an exception raised by it is an `Except.error`
that propagates, exactly as a Python exception aborts the enclosing
function.  The md5 hexdigest is an external function `fp`.
-/

mutual
/-- A DOM node: a text node or an element with a tag and a child list. -/
inductive HNode where
  | text : List Char → HNode
  | elem : String → HForest → HNode
/-- A sibling list of DOM nodes (mutual with `HNode` so that recursion over
the tree is structural). -/
inductive HForest where
  | fnil : HForest
  | fcons : HNode → HForest → HForest
end

/-- Build a sibling list from a `List HNode` (notation convenience). -/
def forest : List HNode → HForest
  | [] => HForest.fnil
  | n :: rest => HForest.fcons n (forest rest)

/-- The tail text of a removed element: `lxml`'s `remove` discards the text
node that immediately follows the removed element in its sibling list. -/
def dropTailText : HForest → HForest
  | HForest.fcons (HNode.text _) rest => rest
  | l => l

/-- `for rt in tree.xpath('.//rt'): rt.getparent().remove(rt)` — removes every
element tagged `rt`, everywhere in the tree, together with its tail text. -/
def stripRt : HForest → HForest
  | HForest.fnil => HForest.fnil
  | HForest.fcons (HNode.text s) rest => HForest.fcons (HNode.text s) (stripRt rest)
  | HForest.fcons (HNode.elem t cs) rest =>
    if t = "rt" then dropTailText (stripRt rest)
    else HForest.fcons (HNode.elem t (stripRt cs)) (stripRt rest)

/-- `tree.text_content()`: the concatenation of all text nodes in document
order. -/
def textContent : HForest → List Char
  | HForest.fnil => []
  | HForest.fcons (HNode.text s) rest => s ++ textContent rest
  | HForest.fcons (HNode.elem _ cs) rest => textContent cs ++ textContent rest

/-- The per-item text of `extract_chapters_from_epub`:
parse → remove `rt` elements → `text_content()` → `strip()`. -/
def itemText (tree : HForest) : List Char :=
  pyStrip (textContent (stripRt tree))

/-- The item loop of `extract_chapters_from_epub`, carrying `seen_hashes`
(as a list of fingerprints) and the accepted `chapters`.  A parse error on
any item propagates (`Except.error`), since the source wraps no
per-item handler around `lxml.html.fromstring`. -/
def extractLoop (parseHtml : List Char → Except (List Char) HForest)
    (fp : List Char → List Char) :
    List (List Char) → List (List Char) → List (List Char) →
    Except (List Char) (List (List Char))
  | [], _seen, chapters => Except.ok chapters
  | content :: rest, seen, chapters =>
    if content = [] then extractLoop parseHtml fp rest seen chapters
    else
      match parseHtml content with
      | Except.error e => Except.error e
      | Except.ok tree =>
        let text := itemText tree
        if text = [] then extractLoop parseHtml fp rest seen chapters
        else if fp text ∈ seen then extractLoop parseHtml fp rest seen chapters
        else extractLoop parseHtml fp rest (fp text :: seen) (chapters ++ [text])

/-- `extract_chapters_from_epub`, with the archive's document items given as
their raw contents, the HTML parser and the fingerprint injected. -/
def extract_chapters_from_epub
    (parseHtml : List Char → Except (List Char) HForest)
    (fp : List Char → List Char) (items : List (List Char)) :
    Except (List Char) (List (List Char)) :=
  extractLoop parseHtml fp items [] []

/-!
## Sentence segmentation (`re.split(r'(?<=[。！？」])', text)`)

The zero-width lookbehind split cuts the string immediately after every
occurrence of one of the four characters; the delimiter stays with the
preceding piece, and a trailing delimiter yields a final empty piece
(as Python's `re.split` does).
-/

/-- The sentence-final characters of the source regex `[。！？」]`. -/
def isSentenceDelim (c : Char) : Bool :=
  c = '。' || c = '！' || c = '？' || c = '」'

/-- Split a character list immediately after every character satisfying `p`
(the delimiter stays with the preceding piece).  `re.split` on a zero-width
lookbehind. -/
def splitAfter (p : Char → Bool) : List Char → List (List Char)
  | [] => [[]]
  | c :: rest =>
    if p c then [c] :: splitAfter p rest
    else
      match splitAfter p rest with
      | [] => [[c]]
      | s :: ss => (c :: s) :: ss

/-- The sentence candidates of one chapter that survive the
`len(sentence) < 5` filter, after `strip()` — exactly the sentences the
source tokenizes. -/
def sentencesOfText (text : List Char) : List (List Char) :=
  ((splitAfter isSentenceDelim text).map pyStrip).filter (fun s => 5 ≤ s.length)

/-!
## Morphological filter and aggregation (`get_vocab_with_context`)

The janome tokenizer is an external analyzer, injected as
`tokenize : List Char → List Morpheme` (spec §6).  The mutable dict
`word_info` is an association list in insertion order (Python dicts
preserve insertion order); the known-words set is threaded through every
step as explicit state, so that the read-only discipline of the source
(`base in known_words` is its only use) is a provable fact rather than a
modelling assumption.
-/

/-- A janome token: surface form, base (dictionary) form, part-of-speech
string. -/
structure Morpheme where
  surface : List Char
  base : List Char
  pos : List Char

/-- The fixed stop-list `BLACKList` of the source. -/
def BLACKList : List (List Char) :=
  [lc "いる", lc "する", lc "ある", lc "なる", lc "れる", lc "られる", lc "いう",
   lc "もの", lc "こと", lc "とき", lc "そう", lc "よう", lc "くる", lc "いく"]

/-- `pos.startswith(('名詞', '動詞', '形容詞')) and '非自立' not in pos`. -/
def posIndependentContentWord (pos : List Char) : Bool :=
  ((lc "名詞").isPrefixOf pos || (lc "動詞").isPrefixOf pos ||
    (lc "形容詞").isPrefixOf pos) && !containsSeq (lc "非自立") pos

/-- The filter chain applied to one token (reject on first match, as in the
source: length, stop-list/known-words, then the POS test). -/
def acceptsToken (known : List (List Char)) (t : Morpheme) : Bool :=
  if t.base.length ≤ 1 then false
  else if BLACKList.contains t.base || known.contains t.base then false
  else posIndependentContentWord t.pos

/-- One aggregation record: `(base form, (frequency, context sentence))`,
an entry of the `word_info` dict. -/
abbrev VocabEntry := List Char × Nat × List Char

/-- `word_info[base] = [1, sentence]` on first sight,
`word_info[base][0] += 1` afterwards — on an insertion-ordered association
list this appends at the end or bumps the first (unique) matching key. -/
def bump (info : List VocabEntry) (base sentence : List Char) : List VocabEntry :=
  match info with
  | [] => [(base, 1, sentence)]
  | (k, n, ctx) :: rest =>
    if k = base then (k, n + 1, ctx) :: rest
    else (k, n, ctx) :: bump rest base sentence

/-- Processing of one token inside the sentence loop: the pair
`(word_info, known_words)` is the mutable state visible to the loop body;
the body reads `known` (`base in known_words`) and writes only `word_info`. -/
def stepToken (sentence : List Char) (st : List VocabEntry × List (List Char))
    (t : Morpheme) : List VocabEntry × List (List Char) :=
  if t.base.length ≤ 1 then st
  else if BLACKList.contains t.base || st.2.contains t.base then st
  else if posIndependentContentWord t.pos then (bump st.1 t.base sentence, st.2)
  else st

/-- The sentence loop body: tokenize the (stripped) sentence and fold the
token loop over its tokens. -/
def stepSentence (tokenize : List Char → List Morpheme)
    (st : List VocabEntry × List (List Char)) (sentence : List Char) :
    List VocabEntry × List (List Char) :=
  (tokenize sentence).foldl (stepToken sentence) st

/-- The chapter loop body: fold the sentence loop over the sentences of one
chapter that pass segmentation and the minimum-length filter. -/
def stepChapter (tokenize : List Char → List Morpheme)
    (st : List VocabEntry × List (List Char)) (text : List Char) :
    List VocabEntry × List (List Char) :=
  (sentencesOfText text).foldl (stepSentence tokenize) st

/-- The full aggregation pass of `get_vocab_with_context`: final
`(word_info, known_words)` state after all chapters. -/
def aggregateAll (tokenize : List Char → List Morpheme)
    (chapters : List (List Char)) (known : List (List Char)) :
    List VocabEntry × List (List Char) :=
  chapters.foldl (stepChapter tokenize) ([], known)

/-- Descending-frequency order used by
`sorted(word_info.items(), key=lambda x: x[1][0], reverse=True)`:
`a` may come before `b` iff `b`'s frequency is at most `a`'s. -/
def freqGE (a b : VocabEntry) : Prop := b.2.1 ≤ a.2.1

instance : DecidableRel freqGE := fun a b => Nat.decLe b.2.1 a.2.1

instance : IsTotal VocabEntry freqGE := ⟨fun a b => Nat.le_total b.2.1 a.2.1⟩

instance : IsTrans VocabEntry freqGE :=
  ⟨fun _ _ _ h1 h2 => Nat.le_trans h2 h1⟩

/-- Python's `sorted` with `key=lambda x: x[1][0], reverse=True`: the unique
stable sort by descending frequency (stable sorts by the same key agree on
all lists, so insertion sort with the reflexive descending order is
extensionally Python's Timsort). -/
def rankSort (entries : List VocabEntry) : List VocabEntry :=
  entries.insertionSort freqGE

/-- Python slice `l[:limit]` for an `int` limit: a nonnegative limit takes a
prefix, a negative limit drops `-limit` elements from the end. -/
def pySlice (limit : Int) (l : List VocabEntry) : List VocabEntry :=
  if 0 ≤ limit then l.take limit.toNat
  else l.take (l.length - (-limit).toNat)

/-- `get_vocab_with_context(chapters, known_words, limit)`: aggregate, sort
by descending frequency, truncate with Python slice semantics. -/
def get_vocab_with_context (tokenize : List Char → List Morpheme)
    (chapters : List (List Char)) (known : List (List Char)) (limit : Int) :
    List VocabEntry :=
  pySlice limit (rankSort (aggregateAll tokenize chapters known).1)

/-!
## The upload route (`upload_epub` in `backend/app.py`)

The only check performed before the pipeline runs is the filename-extension
check; `limit: int = 2000` carries no range constraint, so any integer —
negative included — reaches `get_vocab_with_context` unchanged.
-/

/-- `upload_epub`: reject non-`.epub` filenames with a 400, then run
extraction and the pipeline; an extraction error surfaces as a processing
error (the route's 500 handler). -/
def upload_epub (parseHtml : List Char → Except (List Char) HForest)
    (fp : List Char → List Char) (tokenize : List Char → List Morpheme)
    (filename : List Char) (items : List (List Char))
    (known : List (List Char)) (limit : Int) :
    Except (List Char) (List VocabEntry) :=
  if !(lc ".epub").isSuffixOf filename then
    Except.error (lc "File must be an EPUB file")
  else
    match extract_chapters_from_epub parseHtml fp items with
    | Except.error e => Except.error e
    | Except.ok chapters => Except.ok (get_vocab_with_context tokenize chapters known limit)

/-!
## Anki import (`extract_words_from_anki_txt` in `anki_parser.py`)

`html.unescape` is Python-stdlib entity decoding, injected as a parameter;
the Python `set` result is modelled as the deduplicated list of the words
added (membership is all the claims use).
-/

/-- A code point in the ranges the source treats as Japanese
(Hiragana, Katakana, Kanji, CJK Extension A — the ranges of both the
extraction regex and `is_japanese_word`). -/
def isJapaneseChar (c : Char) : Bool :=
  (0x3040 ≤ c.toNat && c.toNat ≤ 0x309F) ||
  (0x30A0 ≤ c.toNat && c.toNat ≤ 0x30FF) ||
  (0x4E00 ≤ c.toNat && c.toNat ≤ 0x9FAF) ||
  (0x3400 ≤ c.toNat && c.toNat ≤ 0x4DBF)

/-- Scanner for `re.sub(r'<[^>]+>', '', text)`.  `buf = none`: outside any
candidate tag; `buf = some b`: the characters seen since the last unmatched
`<` (in reverse, `<` included).  A closing `>` with at least one buffered
content character completes a match and the buffer is dropped; `<>` matches
nothing and is emitted; a `<` never closed is emitted at the end. -/
def stripTagsAux : List Char → Option (List Char) → List Char
  | [], none => []
  | [], some buf => buf.reverse
  | c :: rest, none =>
    if c = '<' then stripTagsAux rest (some [c])
    else c :: stripTagsAux rest none
  | c :: rest, some buf =>
    if c = '>' then
      if 2 ≤ buf.length then stripTagsAux rest none
      else buf.reverse ++ c :: stripTagsAux rest none
    else stripTagsAux rest (some (c :: buf))

/-- `re.sub(r'<[^>]+>', '', text)`: at each `<`, the shortest nonempty run of
non-`>` characters followed by `>` is deleted; a `<` with no such closing
`>` is kept. -/
def stripTags (l : List Char) : List Char :=
  stripTagsAux l none

/-- `clean_html`: remove tags, decode entities (external `unescape`), strip. -/
def clean_html (unescape : List Char → List Char) (text : List Char) : List Char :=
  pyStrip (unescape (stripTags text))

/-- Scanner for the run-extraction regex: `cur` is the current run of
Japanese characters, in reverse. -/
def japaneseRunsAux : List Char → List Char → List (List Char)
  | [], cur => if cur = [] then [] else [cur.reverse]
  | c :: rest, cur =>
    if isJapaneseChar c then japaneseRunsAux rest (c :: cur)
    else if cur = [] then japaneseRunsAux rest []
    else cur.reverse :: japaneseRunsAux rest []

/-- The maximal runs of Japanese characters in a text
(`re.findall(r'[぀-ゟ゠-ヿ一-龯㐀-䶿]+', text)`). -/
def japaneseRuns (l : List Char) : List (List Char) :=
  japaneseRunsAux l []

/-- `extract_words_from_text`: the Japanese runs, stripped, empties dropped. -/
def extract_words_from_text (text : List Char) : List (List Char) :=
  ((japaneseRuns text).map pyStrip).filter (fun w => w ≠ [])

/-- The fixed particle list of `is_japanese_word`. -/
def commonParticles : List (List Char) :=
  [lc "の", lc "に", lc "は", lc "を", lc "が", lc "で", lc "と",
   lc "も", lc "から", lc "まで", lc "より", lc "へ", lc "か", lc "ね", lc "よ", lc "さ"]

/-- `is_japanese_word`: length at least 2, not a common particle, and at
least one character in the Japanese ranges. -/
def is_japanese_word (w : List Char) : Bool :=
  if w.length ≤ 1 then false
  else if commonParticles.contains w then false
  else w.any isJapaneseChar

/-- The words contributed by one line of the Anki export: skip blank lines,
take the first tab-separated field, skip it when blank after stripping,
clean HTML, extract the Japanese runs and keep those passing
`is_japanese_word`. -/
def ankiLineWords (unescape : List Char → List Char) (line : List Char) :
    List (List Char) :=
  if pyStrip line = [] then []
  else
    let firstField := pyStrip ((line.splitOn '\t').headD [])
    if firstField = [] then []
    else (extract_words_from_text (clean_html unescape firstField)).filter is_japanese_word

/-- `extract_words_from_anki_txt`: strip the content, split into lines, and
collect each line's words; the Python `set` is the deduplicated collection. -/
def extract_words_from_anki_txt (unescape : List Char → List Char)
    (content : List Char) : List (List Char) :=
  (((pyStrip content).splitOn '\n').flatMap (ankiLineWords unescape)).dedup

/-!
## Derived views of the aggregation, used to state the claims
-/

/-- Lookup in the insertion-ordered `word_info` association list
(`word_info[base]`; keys are unique, so first match is the match). -/
def lookupInfo (base : List Char) : List VocabEntry → Option (Nat × List Char)
  | [] => none
  | (k, v) :: rest => if k = base then some v else lookupInfo base rest

/-- The stream of `(base form, sentence)` pairs the aggregation accepts, in
processing order: every morpheme of every qualifying sentence of every
chapter that passes the filter chain. -/
def acceptedStream (tokenize : List Char → List Morpheme)
    (chapters : List (List Char)) (known : List (List Char)) :
    List (List Char × List Char) :=
  (chapters.flatMap sentencesOfText).flatMap
    (fun s => ((tokenize s).filter (acceptsToken known)).map (fun t => (t.base, s)))

/-- One aggregation step on the flattened stream. -/
def bumpStep (info : List VocabEntry) (e : List Char × List Char) : List VocabEntry :=
  bump info e.1 e.2

/-- The keys of the `word_info` association list, in insertion order. -/
def infoKeys (info : List VocabEntry) : List (List Char) :=
  info.map (fun e => e.1)

/-!
## The segmenter as the claim words it (for the refinement comparison)

Modelled from the claim/spec wording, not from the source: a boundary falls
immediately after `。`, `！`, `？`, or after a closing `」` only when that
`」` itself follows sentence-final punctuation.  The source regex
`(?<=[。！？」])` has no such condition on `」`; the two are compared on a
concrete chapter below.
-/

/-- The three sentence-final punctuation marks named by the claim. -/
def isFinalPunct (c : Char) : Bool :=
  c = '。' || c = '！' || c = '？'

/-- Claim-worded boundary test: `prev` is the character preceding `c`. -/
def specC4Boundary (prev : Option Char) (c : Char) : Bool :=
  isFinalPunct c ||
    (c = '」' && (match prev with | some d => isFinalPunct d | none => false))

/-- Claim-worded splitter: cut immediately after every claim-worded boundary
character, delimiter attached to the preceding piece. -/
def splitAfterSpec : Option Char → List Char → List (List Char)
  | _, [] => [[]]
  | prev, c :: rest =>
    if specC4Boundary prev c then [c] :: splitAfterSpec (some c) rest
    else
      match splitAfterSpec (some c) rest with
      | [] => [[c]]
      | s :: ss => (c :: s) :: ss

/-- Sentence candidates under the claim-worded splitter, with the same
trim/minimum-length treatment as the source. -/
def sentencesOfTextSpecC4 (text : List Char) : List (List Char) :=
  ((splitAfterSpec none text).map pyStrip).filter (fun s => 5 ≤ s.length)

/-!
## Concrete fixtures for counterexamples and witnesses
-/

/-- A parser mapping each item content to a single text node — the shape of
a plain-prose chapter document. -/
def parseText (c : List Char) : Except (List Char) HForest :=
  Except.ok (forest [HNode.text c])

/-- A parser failing on the item `"x"` (as `lxml.html.fromstring` raises
`ParserError` on contentless input) and succeeding elsewhere. -/
def parseFail1 (c : List Char) : Except (List Char) HForest :=
  if c = lc "x" then Except.error (lc "ParserError") else parseText c

/-- The ruby fragment of the claim:
`<ruby>漢字<rt>かんじ</rt></ruby>`. -/
def rubyFrag : HForest :=
  forest [HNode.elem "ruby"
    (forest [HNode.text (lc "漢字"), HNode.elem "rt" (forest [HNode.text (lc "かんじ")])])]

/-- A parser producing the ruby fragment for every item. -/
def parseRuby (_ : List Char) : Except (List Char) HForest :=
  Except.ok rubyFrag

/-- A scripted analyzer: every sentence yields the two independent nouns
`言葉` and `試験`. -/
def tzPair (s : List Char) : List Morpheme :=
  [⟨s, lc "言葉", lc "名詞,一般"⟩, ⟨s, lc "試験", lc "名詞,一般"⟩]

/-- A concrete chapter text: a single qualifying sentence. -/
def sampleChapter : List Char := lc "これは一つの文です。"

/-- A concrete two-sentence chapter: `習う` occurs in both sentences. -/
def twoSentenceChapter : List Char := lc "言葉を習うのです。毎日それを習うのです。"

/-- A scripted analyzer for `twoSentenceChapter`: each sentence yields the
verb `習う` plus a filler the filters reject. -/
def tzNarau (s : List Char) : List Morpheme :=
  [⟨s, lc "習う", lc "動詞,自立"⟩, ⟨s, lc "の", lc "助詞,一般"⟩]

/-- The concrete chapter on which the source splitter and the claim-worded
splitter disagree: the `」` follows `う`, not sentence-final punctuation. -/
def quoteChapter : List Char := lc "「おはよう」と彼は言った。"

/-!
## Sanity checks against Python behaviour
-/

example : pyStrip (lc "  あい う ") = lc "あい う" := by decide
example : containsSeq (lc "非自立") (lc "動詞,非自立,*") = true := by decide
example : containsSeq (lc "非自立") (lc "動詞,自立,*") = false := by decide
example : stripRt (forest [HNode.elem "ruby" (forest [HNode.text (lc "漢"),
      HNode.elem "rt" (forest [HNode.text (lc "かん")])])]) =
    forest [HNode.elem "ruby" (forest [HNode.text (lc "漢")])] := by rfl
example :
    extract_chapters_from_epub parseText id
      [lc "あいう", lc "あいう", lc "  ", lc "かきく"] =
    Except.ok [lc "あいう", lc "かきく"] := by rfl
example : splitAfter isSentenceDelim (lc "これは文です。次の文。") =
    [lc "これは文です。", lc "次の文。", lc ""] := by rfl
example : splitAfter isSentenceDelim (lc "「はい」と言う") =
    [lc "「はい」", lc "と言う"] := by rfl
example :
    rankSort [(lc "A", 3, lc "a"), (lc "B", 3, lc "b"), (lc "C", 5, lc "c")] =
      [(lc "C", 5, lc "c"), (lc "A", 3, lc "a"), (lc "B", 3, lc "b")] := by rfl
example : stripTags (lc "<b>漢字</b>です") = lc "漢字です" := by rfl
example : stripTags (lc "a<>b<c") = lc "a<>b<c" := by rfl
example : japaneseRuns (lc "abc日本god語x") = [lc "日本", lc "語"] := by rfl
example :
    extract_words_from_anki_txt id
      (lc "日本語\tnihongo\n\nの\tparticle\n<b>漢字</b>です\tkanji") =
    [lc "日本語", lc "漢字です"] := by rfl

/-!
# Supporting lemmas

## State threading and flattening of the aggregation loop
-/

theorem stepToken_snd (s : List Char) (st : List VocabEntry × List (List Char))
    (t : Morpheme) : (stepToken s st t).2 = st.2 := by
  unfold stepToken
  split
  · rfl
  · split
    · rfl
    · split <;> rfl

theorem stepToken_eq (s : List Char) (st : List VocabEntry × List (List Char))
    (t : Morpheme) :
    stepToken s st t =
      (if acceptsToken st.2 t = true then bump st.1 t.base s else st.1, st.2) := by
  unfold stepToken acceptsToken
  split
  · simp
  · split
    · simp
    · split <;> simp_all

theorem foldl_stepToken_fst (s : List Char) (known : List (List Char))
    (ts : List Morpheme) (info : List VocabEntry) :
    (ts.foldl (stepToken s) (info, known)).1 =
      ((ts.filter (acceptsToken known)).map (fun t => (t.base, s))).foldl bumpStep info := by
  induction ts generalizing info with
  | nil => rfl
  | cons t ts ih =>
    rw [List.foldl_cons, stepToken_eq]
    by_cases h : acceptsToken known t = true
    · simp only [h, if_pos, List.filter_cons_of_pos, List.map_cons, List.foldl_cons]
      exact ih (bump info t.base s)
    · simp only [h, if_neg, Bool.false_eq_true, not_false_iff, List.filter_cons_of_neg]
      exact ih info

theorem foldl_stepToken_snd (s : List Char) (ts : List Morpheme)
    (st : List VocabEntry × List (List Char)) :
    (ts.foldl (stepToken s) st).2 = st.2 := by
  induction ts generalizing st with
  | nil => rfl
  | cons t ts ih => rw [List.foldl_cons, ih, stepToken_snd]

theorem stepSentence_eq (tz : List Char → List Morpheme) (info : List VocabEntry)
    (known : List (List Char)) (s : List Char) :
    stepSentence tz (info, known) s =
      ((((tz s).filter (acceptsToken known)).map (fun t => (t.base, s))).foldl bumpStep info,
        known) := by
  unfold stepSentence
  refine Prod.ext ?_ ?_
  · exact foldl_stepToken_fst s known (tz s) info
  · exact foldl_stepToken_snd s (tz s) (info, known)

theorem foldl_stepSentence_eq (tz : List Char → List Morpheme)
    (ss : List (List Char)) (info : List VocabEntry) (known : List (List Char)) :
    ss.foldl (stepSentence tz) (info, known) =
      ((ss.flatMap
          (fun s => ((tz s).filter (acceptsToken known)).map (fun t => (t.base, s)))).foldl
            bumpStep info,
        known) := by
  induction ss generalizing info with
  | nil => rfl
  | cons s ss ih =>
    rw [List.foldl_cons, stepSentence_eq, ih, List.flatMap_cons, List.foldl_append]

theorem foldl_stepChapter_eq (tz : List Char → List Morpheme)
    (chs : List (List Char)) (info : List VocabEntry) (known : List (List Char)) :
    chs.foldl (stepChapter tz) (info, known) =
      ((chs.flatMap (fun c => (sentencesOfText c).flatMap
          (fun s => ((tz s).filter (acceptsToken known)).map (fun t => (t.base, s))))).foldl
            bumpStep info,
        known) := by
  induction chs generalizing info with
  | nil => rfl
  | cons c chs ih =>
    rw [List.foldl_cons]
    have h : stepChapter tz (info, known) c =
        (((sentencesOfText c).flatMap
          (fun s => ((tz s).filter (acceptsToken known)).map (fun t => (t.base, s)))).foldl
            bumpStep info, known) :=
      foldl_stepSentence_eq tz (sentencesOfText c) info known
    rw [h, ih, List.flatMap_cons, List.foldl_append]

theorem aggregateAll_eq (tz : List Char → List Morpheme)
    (chapters : List (List Char)) (known : List (List Char)) :
    aggregateAll tz chapters known =
      ((acceptedStream tz chapters known).foldl bumpStep [], known) := by
  unfold aggregateAll acceptedStream
  rw [List.flatMap_assoc]
  exact foldl_stepChapter_eq tz chapters [] known

/-!
## Lookup, counting and key uniqueness of the `word_info` dict
-/


theorem lookupInfo_bump (info : List VocabEntry) (b s k : List Char) :
    lookupInfo k (bump info b s) =
      if k = b then
        match lookupInfo b info with
        | none => some (1, s)
        | some (n, c) => some (n + 1, c)
      else lookupInfo k info := by
  induction info with
  | nil =>
    by_cases h : k = b
    · subst h; simp [bump, lookupInfo]
    · have h2 : ¬b = k := fun hh => h hh.symm
      simp [bump, lookupInfo, h, h2]
  | cons e rest ih =>
    obtain ⟨k', n', c'⟩ := e
    by_cases hkb : k = b
    · subst hkb
      by_cases hk : k' = k
      · subst hk
        simp [bump, lookupInfo]
      · simp [bump, lookupInfo, hk, ih]
    · by_cases hk'b : k' = b
      · subst hk'b
        have h2 : ¬k' = k := fun hh => hkb (hh ▸ rfl)
        simp [bump, lookupInfo, hkb, h2]
      · by_cases hk : k' = k
        · subst hk
          simp [bump, lookupInfo, hk'b, hkb]
        · simp [bump, lookupInfo, hk'b, hkb, hk, ih]

theorem lookupInfo_eq_none_iff (info : List VocabEntry) (b : List Char) :
    lookupInfo b info = none ↔ b ∉ infoKeys info := by
  induction info with
  | nil => simp [lookupInfo, infoKeys]
  | cons e rest ih =>
    obtain ⟨k', n', c'⟩ := e
    by_cases h : k' = b
    · subst h
      simp [lookupInfo, infoKeys]
    · have h2 : ¬b = k' := fun hh => h hh.symm
      simp [lookupInfo, infoKeys, ih, h, h2]

theorem infoKeys_bump (info : List VocabEntry) (b s : List Char) :
    infoKeys (bump info b s) =
      if b ∈ infoKeys info then infoKeys info else infoKeys info ++ [b] := by
  induction info with
  | nil => simp [bump, infoKeys]
  | cons e rest ih =>
    obtain ⟨k', n', c'⟩ := e
    by_cases h : k' = b
    · subst h
      simp [bump, infoKeys]
    · have h2 : ¬b = k' := fun hh => h hh.symm
      simp only [bump, if_neg h, infoKeys, List.map_cons]
      rw [show List.map (fun e => e.1) (bump rest b s) = infoKeys (bump rest b s) from rfl, ih]
      by_cases hb : b ∈ List.map (fun e => e.1) rest
      · simp [List.mem_cons, h2, hb, infoKeys]
      · simp [List.mem_cons, h2, hb, infoKeys]

theorem infoKeys_bump_nodup (info : List VocabEntry) (b s : List Char)
    (h : (infoKeys info).Nodup) : (infoKeys (bump info b s)).Nodup := by
  rw [infoKeys_bump]
  by_cases hb : b ∈ infoKeys info
  · simpa [hb] using h
  · simp only [hb, if_neg, if_false]
    rw [List.nodup_append]
    exact ⟨h, List.nodup_singleton b, by simpa using hb⟩

theorem infoKeys_foldl_nodup (stream : List (List Char × List Char))
    (info : List VocabEntry) (h : (infoKeys info).Nodup) :
    (infoKeys (stream.foldl bumpStep info)).Nodup := by
  induction stream generalizing info with
  | nil => exact h
  | cons e rest ih =>
    rw [List.foldl_cons]
    exact ih _ (infoKeys_bump_nodup info e.1 e.2 h)

theorem lookupInfo_foldl_bumpStep (stream : List (List Char × List Char))
    (info : List VocabEntry) (b : List Char) :
    lookupInfo b (stream.foldl bumpStep info) =
      match lookupInfo b info, stream.filter (fun e => e.1 = b) with
      | some (n, c), occs => some (n + occs.length, c)
      | none, [] => none
      | none, (_, s) :: occs => some (occs.length + 1, s) := by
  induction stream generalizing info with
  | nil =>
    cases h : lookupInfo b info with
    | none => simp [h]
    | some v => obtain ⟨n, c⟩ := v; simp [h]
  | cons e rest ih =>
    rw [List.foldl_cons, ih]
    by_cases he : e.1 = b
    · have hb : lookupInfo b (bumpStep info e) =
          match lookupInfo b info with
          | none => some (1, e.2)
          | some (n, c) => some (n + 1, c) := by
        rw [show bumpStep info e = bump info e.1 e.2 from rfl, lookupInfo_bump info e.1 e.2 b]
        rw [he, if_pos rfl]
      rw [List.filter_cons_of_pos (by simpa using he)]
      cases h : lookupInfo b info with
      | none =>
        simp only [h] at hb
        simp only [hb, List.length_cons]
        cases hr : rest.filter (fun e => e.1 = b) with
        | nil => simp
        | cons o os => simp; omega
      | some v =>
        obtain ⟨n, c⟩ := v
        simp only [h] at hb
        simp only [hb, List.length_cons]
        cases hr : rest.filter (fun e => e.1 = b) with
        | nil => simp
        | cons o os => simp; omega
    · have hb : lookupInfo b (bumpStep info e) = lookupInfo b info := by
        rw [show bumpStep info e = bump info e.1 e.2 from rfl, lookupInfo_bump info e.1 e.2 b]
        rw [if_neg (fun hh => he hh.symm)]
      rw [List.filter_cons_of_neg (by simpa using he), hb]

/-!
## Structure of the lookbehind split
-/

theorem splitAfter_ne_nil (p : Char → Bool) (l : List Char) : splitAfter p l ≠ [] := by
  cases l with
  | nil => simp [splitAfter]
  | cons c rest =>
    unfold splitAfter
    by_cases h : p c = true
    · simp [h]
    · rw [if_neg h]
      cases splitAfter p rest <;> simp

theorem splitAfter_flatten (p : Char → Bool) (l : List Char) :
    (splitAfter p l).flatten = l := by
  induction l with
  | nil => rfl
  | cons c rest ih =>
    unfold splitAfter
    by_cases h : p c = true
    · simp [h, ih]
    · rw [if_neg h]
      cases hs : splitAfter p rest with
      | nil => exact absurd hs (splitAfter_ne_nil p rest)
      | cons s ss =>
        have hj : (s :: ss).flatten = rest := hs ▸ ih
        simpa using hj

theorem splitAfter_structure (p : Char → Bool) (l : List Char) :
    ∃ init last, splitAfter p l = init ++ [last] ∧
      (∀ s ∈ init, ∃ u d, s = u ++ [d] ∧ p d = true ∧ ∀ x ∈ u, p x = false) ∧
      (∀ x ∈ last, p x = false) := by
  induction l with
  | nil => exact ⟨[], [], rfl, by simp, by simp⟩
  | cons c rest ih =>
    obtain ⟨init, last, heq, hinit, hlast⟩ := ih
    by_cases h : p c = true
    · refine ⟨[c] :: init, last, ?_, ?_, hlast⟩
      · unfold splitAfter
        rw [if_pos h, heq, List.cons_append]
      · intro s hs
        rcases List.mem_cons.mp hs with rfl | hs
        · exact ⟨[], c, rfl, h, by simp⟩
        · exact hinit s hs
    · have hc : p c = false := by simpa using h
      cases init with
      | nil =>
        refine ⟨[], c :: last, ?_, by simp, ?_⟩
        · unfold splitAfter
          rw [if_neg h, heq]
          rfl
        · intro x hx
          rcases List.mem_cons.mp hx with rfl | hx
          · exact hc
          · exact hlast x hx
      | cons s₁ init' =>
        refine ⟨(c :: s₁) :: init', last, ?_, ?_, hlast⟩
        · unfold splitAfter
          rw [if_neg h, heq, List.cons_append]
          rfl
        · intro s hs
          rcases List.mem_cons.mp hs with rfl | hs
          · obtain ⟨u, d, hsu, hd, hu⟩ := hinit s₁ (List.mem_cons_self s₁ init')
            refine ⟨c :: u, d, by rw [hsu, List.cons_append], hd, ?_⟩
            intro x hx
            rcases List.mem_cons.mp hx with rfl | hx
            · exact hc
            · exact hu x hx
          · exact hinit s (List.mem_cons_of_mem s₁ hs)

/-!
## The extraction loop: duplicate-freedom and error propagation
-/

theorem extractLoop_ok_inv (pf : List Char → Except (List Char) HForest)
    (fp : List Char → List Char) (items : List (List Char)) :
    ∀ seen chapters out, (∀ t ∈ chapters, fp t ∈ seen) → chapters.Nodup →
      (∀ t ∈ chapters, t ≠ []) →
      extractLoop pf fp items seen chapters = Except.ok out →
      out.Nodup ∧ ∀ t ∈ out, t ≠ [] := by
  induction items with
  | nil =>
    intro seen chapters out hfp hnd hne h
    unfold extractLoop at h
    cases h
    exact ⟨hnd, hne⟩
  | cons content rest ih =>
    intro seen chapters out hfp hnd hne h
    unfold extractLoop at h
    by_cases hc : content = []
    · rw [if_pos hc] at h
      exact ih seen chapters out hfp hnd hne h
    · rw [if_neg hc] at h
      cases hp : pf content with
      | error e => rw [hp] at h; simp at h
      | ok tree =>
        rw [hp] at h
        simp only at h
        by_cases ht : itemText tree = []
        · rw [if_pos ht] at h
          exact ih _ _ _ hfp hnd hne h
        · rw [if_neg ht] at h
          by_cases hseen : fp (itemText tree) ∈ seen
          · rw [if_pos hseen] at h
            exact ih _ _ _ hfp hnd hne h
          · rw [if_neg hseen] at h
            refine ih _ _ _ ?_ ?_ ?_ h
            · intro t htm
              rcases List.mem_append.mp htm with htm | htm
              · exact List.mem_cons_of_mem _ (hfp t htm)
              · simp only [List.mem_singleton] at htm
                subst htm
                exact List.mem_cons_self _ _
            · rw [List.nodup_append]
              refine ⟨hnd, List.nodup_singleton _, ?_⟩
              intro t htm hmem
              simp only [List.mem_singleton] at hmem
              subst hmem
              exact hseen (hfp _ htm)
            · intro t htm
              rcases List.mem_append.mp htm with htm | htm
              · exact hne t htm
              · simp only [List.mem_singleton] at htm
                subst htm
                exact ht

theorem extractLoop_error_of_bad_item (pf : List Char → Except (List Char) HForest)
    (fp : List Char → List Char) (items : List (List Char)) :
    ∀ seen chapters,
      (∃ c ∈ items, c ≠ [] ∧ ∃ e, pf c = Except.error e) →
      ∃ e, extractLoop pf fp items seen chapters = Except.error e := by
  induction items with
  | nil =>
    intro seen chapters hbad
    obtain ⟨c, hc, _⟩ := hbad
    simp at hc
  | cons content rest ih =>
    intro seen chapters hbad
    unfold extractLoop
    obtain ⟨c, hcm, hcne, e, hce⟩ := hbad
    rcases List.mem_cons.mp hcm with rfl | hcm
    · rw [if_neg hcne, hce]
      exact ⟨e, rfl⟩
    · by_cases hc : content = []
      · rw [if_pos hc]
        exact ih seen chapters ⟨c, hcm, hcne, e, hce⟩
      · rw [if_neg hc]
        cases hp : pf content with
        | error e' => exact ⟨e', rfl⟩
        | ok tree =>
          simp only
          by_cases ht : itemText tree = []
          · rw [if_pos ht]
            exact ih _ _ ⟨c, hcm, hcne, e, hce⟩
          · rw [if_neg ht]
            by_cases hseen : fp (itemText tree) ∈ seen
            · rw [if_pos hseen]
              exact ih _ _ ⟨c, hcm, hcne, e, hce⟩
            · rw [if_neg hseen]
              exact ih _ _ ⟨c, hcm, hcne, e, hce⟩

/-!
## The filter chain as a flat conjunction
-/

theorem acceptsToken_iff (known : List (List Char)) (t : Morpheme) :
    acceptsToken known t = true ↔
      (2 ≤ t.base.length ∧ t.base ∉ BLACKList ∧ t.base ∉ known ∧
        ((lc "名詞").isPrefixOf t.pos = true ∨ (lc "動詞").isPrefixOf t.pos = true ∨
          (lc "形容詞").isPrefixOf t.pos = true) ∧
        containsSeq (lc "非自立") t.pos = false) := by
  constructor
  · intro ha
    by_cases h1 : t.base.length ≤ 1
    · rw [acceptsToken, if_pos h1] at ha
      exact absurd ha (by simp)
    · by_cases h2 : (BLACKList.contains t.base || known.contains t.base) = true
      · rw [acceptsToken, if_pos h2] at ha
        exact absurd ha (by simp)
      · rw [acceptsToken, if_neg h1, if_neg h2] at ha
        rw [posIndependentContentWord, Bool.and_eq_true, Bool.not_eq_true'] at ha
        obtain ⟨hp, hn⟩ := ha
        rw [Bool.or_eq_true, Bool.or_eq_true] at hp
        rw [Bool.or_eq_true] at h2
        push_neg at h2
        obtain ⟨hbl, hkn⟩ := h2
        refine ⟨by omega, ?_, ?_, by tauto, hn⟩
        · intro hmem
          exact hbl (List.elem_iff.mpr hmem)
        · intro hmem
          exact hkn (List.elem_iff.mpr hmem)
  · rintro ⟨h1, h2, h3, h4, h5⟩
    have hb1 : ¬t.base.length ≤ 1 := by omega
    have hb2 : ¬(BLACKList.contains t.base || known.contains t.base) = true := by
      rw [Bool.or_eq_true]
      push_neg
      constructor
      · intro hc; exact h2 (List.elem_iff.mp hc)
      · intro hc; exact h3 (List.elem_iff.mp hc)
    rw [acceptsToken, if_neg hb1, if_neg hb2, posIndependentContentWord,
      Bool.and_eq_true, Bool.not_eq_true']
    refine ⟨?_, h5⟩
    rw [Bool.or_eq_true, Bool.or_eq_true]
    tauto

theorem accepted_base_not_known (tz : List Char → List Morpheme)
    (chapters known : List (List Char)) (w : List Char) (hw : w ∈ known) :
    (acceptedStream tz chapters known).filter (fun e => e.1 = w) = [] := by
  rw [List.filter_eq_nil_iff]
  intro e he
  simp only [decide_eq_true_eq]
  intro hew
  unfold acceptedStream at he
  simp only [List.mem_flatMap, List.mem_map, List.mem_filter] at he
  obtain ⟨s, _, t, ⟨_, hacc⟩, heq⟩ := he
  have hnk := ((acceptsToken_iff known t).mp hacc).2.2.1
  apply hnk
  have : e.1 = t.base := by rw [← heq]
  rw [← this, hew]
  exact hw

/-!
# Claim theorems
-/

/-- C1: a morpheme contributes to the output mapping iff its base form has
length at least 2, is neither in the stop-list nor in the known-words set,
and its POS string starts with noun/verb/adjective without the
non-independent marker; a known base form never appears in the mapping. -/
theorem c1_filter_chain_characterization :
    (∀ (known : List (List Char)) (t : Morpheme),
      acceptsToken known t = true ↔
        (2 ≤ t.base.length ∧ t.base ∉ BLACKList ∧ t.base ∉ known ∧
          ((lc "名詞").isPrefixOf t.pos = true ∨ (lc "動詞").isPrefixOf t.pos = true ∨
            (lc "形容詞").isPrefixOf t.pos = true) ∧
          containsSeq (lc "非自立") t.pos = false)) ∧
    (∀ (s : List Char) (st : List VocabEntry × List (List Char)) (t : Morpheme),
      stepToken s st t =
        (if acceptsToken st.2 t = true then bump st.1 t.base s else st.1, st.2)) ∧
    (∀ (tz : List Char → List Morpheme) (chapters known : List (List Char))
        (w : List Char), w ∈ known →
      lookupInfo w (aggregateAll tz chapters known).1 = none) := by
  refine ⟨acceptsToken_iff, stepToken_eq, ?_⟩
  intro tz chapters known w hw
  rw [aggregateAll_eq]
  rw [lookupInfo_foldl_bumpStep]
  rw [accepted_base_not_known tz chapters known w hw]
  rfl

/-- C9: the aggregation pass threads the known-words set through every
token step and returns it unchanged; the pipeline never mutates it. -/
theorem c9_known_words_read_only (tz : List Char → List Morpheme)
    (chapters known : List (List Char)) (limit : Int) :
    (aggregateAll tz chapters known).2 = known ∧
    get_vocab_with_context tz chapters known limit =
      pySlice limit (rankSort (aggregateAll tz chapters known).1) := by
  refine ⟨?_, rfl⟩
  rw [aggregateAll_eq]

/-- C1 witness: on a concrete token and a concrete run, the filter
characterization holds and the known word `言葉` — produced by the analyzer
in every sentence — is absent from the aggregation. -/
theorem c1_filter_chain_witness :
    (acceptsToken [lc "言葉"] ⟨lc "言葉", lc "言葉", lc "名詞,一般"⟩ = true ↔
      (2 ≤ (lc "言葉").length ∧ lc "言葉" ∉ BLACKList ∧ lc "言葉" ∉ [lc "言葉"] ∧
        ((lc "名詞").isPrefixOf (lc "名詞,一般") = true ∨
          (lc "動詞").isPrefixOf (lc "名詞,一般") = true ∨
          (lc "形容詞").isPrefixOf (lc "名詞,一般") = true) ∧
        containsSeq (lc "非自立") (lc "名詞,一般") = false)) ∧
    lc "言葉" ∈ [lc "言葉"] ∧
    lookupInfo (lc "言葉") (aggregateAll tzPair [sampleChapter] [lc "言葉"]).1 = none :=
  ⟨c1_filter_chain_characterization.1 [lc "言葉"] ⟨lc "言葉", lc "言葉", lc "名詞,一般"⟩,
    by simp,
    c1_filter_chain_characterization.2.2 tzPair [sampleChapter] [lc "言葉"] (lc "言葉")
      (by simp)⟩

/-- C3: the entry stored for a base form carries the exact number of
accepted occurrences (at least 1) and the sentence of the first accepted
occurrence; an absent entry means no accepted occurrence; keys are unique,
so there is exactly one entry per distinct base form. -/
theorem c3_frequency_and_first_context (tz : List Char → List Morpheme)
    (chapters known : List (List Char)) (b : List Char) :
    (∀ n ctx, lookupInfo b (aggregateAll tz chapters known).1 = some (n, ctx) →
      n = ((acceptedStream tz chapters known).filter (fun e => e.1 = b)).length ∧
      1 ≤ n ∧
      ∃ rest, (acceptedStream tz chapters known).filter (fun e => e.1 = b) =
        (b, ctx) :: rest) ∧
    (lookupInfo b (aggregateAll tz chapters known).1 = none ↔
      (acceptedStream tz chapters known).filter (fun e => e.1 = b) = []) ∧
    (infoKeys (aggregateAll tz chapters known).1).Nodup := by
  rw [aggregateAll_eq]
  have hl := lookupInfo_foldl_bumpStep (acceptedStream tz chapters known) [] b
  cases hfil : (acceptedStream tz chapters known).filter (fun e => e.1 = b) with
  | nil =>
    rw [hfil] at hl
    simp only [lookupInfo] at hl
    refine ⟨?_, ?_, infoKeys_foldl_nodup _ [] (by simp [infoKeys])⟩
    · intro n ctx h
      rw [hl] at h
      cases h
    · simp [hl]
  | cons o os =>
    obtain ⟨o1, o2⟩ := o
    have ho1 : o1 = b := by
      have hm : (o1, o2) ∈ (acceptedStream tz chapters known).filter (fun e => e.1 = b) := by
        rw [hfil]; exact List.mem_cons_self _ _
      have := (List.mem_filter.mp hm).2
      simpa using this
    subst ho1
    rw [hfil] at hl
    simp only [lookupInfo] at hl
    refine ⟨?_, ?_, infoKeys_foldl_nodup _ [] (by simp [infoKeys])⟩
    · intro n ctx h
      rw [hl] at h
      injection h with h
      injection h with h1 h2
      subst h1; subst h2
      exact ⟨by simp, by omega, os, rfl⟩
    · rw [hl]
      constructor
      · intro h; cases h
      · intro h; cases h

/-- C3 witness: `習う` occurs (and is accepted) in two sentences of the
concrete chapter; its entry has frequency 2 and the first sentence as its
context. -/
theorem c3_frequency_witness :
    lookupInfo (lc "習う") (aggregateAll tzNarau [twoSentenceChapter] []).1 =
      some (2, lc "言葉を習うのです。") ∧
    (2 = ((acceptedStream tzNarau [twoSentenceChapter] []).filter
        (fun e => e.1 = lc "習う")).length ∧ 1 ≤ 2 ∧
      ∃ rest, (acceptedStream tzNarau [twoSentenceChapter] []).filter
          (fun e => e.1 = lc "習う") = (lc "習う", lc "言葉を習うのです。") :: rest) := by
  have hl : lookupInfo (lc "習う") (aggregateAll tzNarau [twoSentenceChapter] []).1 =
      some (2, lc "言葉を習うのです。") := by rfl
  exact ⟨hl, (c3_frequency_and_first_context tzNarau [twoSentenceChapter] []
    (lc "習う")).1 2 (lc "言葉を習うのです。") hl⟩

/-- C2: the ranked result is the stable descending-frequency sort of the
aggregated entries truncated to the first `limit`; ties keep first-seen
order, and a limit at least the entry count returns every entry. -/
theorem c2_stable_ranking (tz : List Char → List Morpheme)
    (chapters known : List (List Char)) (limit : Int) (hlim : 0 ≤ limit) :
    get_vocab_with_context tz chapters known limit =
      (rankSort (aggregateAll tz chapters known).1).take limit.toNat ∧
    List.Sorted freqGE (get_vocab_with_context tz chapters known limit) ∧
    (∀ x y : VocabEntry,
      List.Sublist [x, y] (aggregateAll tz chapters known).1 → x.2.1 = y.2.1 →
      List.Sublist [x, y] (rankSort (aggregateAll tz chapters known).1)) ∧
    ((aggregateAll tz chapters known).1.length ≤ limit.toNat →
      get_vocab_with_context tz chapters known limit =
        rankSort (aggregateAll tz chapters known).1 ∧
      (get_vocab_with_context tz chapters known limit).Perm
        (aggregateAll tz chapters known).1) := by
  have h1 : get_vocab_with_context tz chapters known limit =
      (rankSort (aggregateAll tz chapters known).1).take limit.toNat := by
    unfold get_vocab_with_context pySlice
    rw [if_pos hlim]
  refine ⟨h1, ?_, ?_, ?_⟩
  · rw [h1]
    exact List.Pairwise.sublist (List.take_sublist _ _)
      (List.sorted_insertionSort freqGE _)
  · intro x y hsub heq
    exact List.pair_sublist_insertionSort (le_of_eq heq.symm) hsub
  · intro hlen
    have hlen2 : (rankSort (aggregateAll tz chapters known).1).length ≤ limit.toNat := by
      rw [show rankSort (aggregateAll tz chapters known).1 =
        ((aggregateAll tz chapters known).1).insertionSort freqGE from rfl]
      rw [List.length_insertionSort]
      exact hlen
    refine ⟨by rw [h1, List.take_of_length_le hlen2], ?_⟩
    rw [h1, List.take_of_length_le hlen2]
    exact List.perm_insertionSort freqGE _

/-- C2 witness: the ranked result of a concrete run with `limit = 5` is the
stable sort truncated to five entries. -/
theorem c2_stable_ranking_witness :
    (0 : Int) ≤ 5 ∧
    get_vocab_with_context tzPair [sampleChapter] [] 5 =
      (rankSort (aggregateAll tzPair [sampleChapter] []).1).take (5 : Int).toNat :=
  ⟨by decide, (c2_stable_ranking tzPair [sampleChapter] [] 5 (by decide)).1⟩

/-- C4 counterexample: the source splits after every `」`, also when it
follows plain text (`う` here), not only after sentence-final punctuation;
the claim-worded segmenter keeps the quoted clause attached, so the two
disagree on this chapter. -/
theorem c4_counterexample_unconditional_quote_split :
    sentencesOfText quoteChapter = [lc "「おはよう」", lc "と彼は言った。"] ∧
    sentencesOfTextSpecC4 quoteChapter = [lc "「おはよう」と彼は言った。"] ∧
    sentencesOfText quoteChapter ≠ sentencesOfTextSpecC4 quoteChapter := by
  refine ⟨by rfl, by rfl, by decide⟩

/-- C4 (amended): segmentation cuts immediately after every occurrence of
`。`, `！`, `？` or `」` — for `」` unconditionally, whatever precedes it —
with the delimiter attached to the preceding piece (the pieces concatenate
back to the text and delimiters sit only at piece ends); every candidate is
trimmed, candidates of trimmed length under 5 are discarded, and every
token the aggregation accepts comes from a surviving sentence. -/
theorem c4_segmentation_amended (text : List Char) :
    (splitAfter isSentenceDelim text).flatten = text ∧
    (∃ init last, splitAfter isSentenceDelim text = init ++ [last] ∧
      (∀ s ∈ init, ∃ u d, s = u ++ [d] ∧ isSentenceDelim d = true ∧
        ∀ x ∈ u, isSentenceDelim x = false) ∧
      (∀ x ∈ last, isSentenceDelim x = false)) ∧
    (∀ s ∈ sentencesOfText text, 5 ≤ s.length ∧
      ∃ seg ∈ splitAfter isSentenceDelim text, s = pyStrip seg) ∧
    (∀ (tz : List Char → List Morpheme) (chapters known : List (List Char))
        (e : List Char × List Char), e ∈ acceptedStream tz chapters known →
      ∃ ch ∈ chapters, e.2 ∈ sentencesOfText ch ∧ 5 ≤ e.2.length) := by
  refine ⟨splitAfter_flatten _ text, splitAfter_structure _ text, ?_, ?_⟩
  · intro s hs
    unfold sentencesOfText at hs
    have hlen := (List.mem_filter.mp hs).2
    have hmem := (List.mem_filter.mp hs).1
    obtain ⟨seg, hseg, rfl⟩ := List.mem_map.mp hmem
    exact ⟨by simpa using hlen, seg, hseg, rfl⟩
  · intro tz chapters known e he
    unfold acceptedStream at he
    simp only [List.mem_flatMap, List.mem_map, List.mem_filter] at he
    obtain ⟨s, hs, t, _, heq⟩ := he
    obtain ⟨ch, hch, hsch⟩ := hs
    have he2 : e.2 = s := by rw [← heq]
    refine ⟨ch, hch, he2 ▸ hsch, ?_⟩
    rw [he2]
    unfold sentencesOfText at hsch
    simpa using (List.mem_filter.mp hsch).2

/-- C4 witness: the amended claim evaluated on the concrete quoted chapter;
the 6-character quoted piece survives, and the accepted tokens of a
concrete run come from sentences of length at least 5. -/
theorem c4_segmentation_witness :
    (splitAfter isSentenceDelim quoteChapter).flatten = quoteChapter ∧
    (lc "「おはよう」" ∈ sentencesOfText quoteChapter ∧
      5 ≤ (lc "「おはよう」").length ∧
      ∃ seg ∈ splitAfter isSentenceDelim quoteChapter, lc "「おはよう」" = pyStrip seg) ∧
    ((lc "習う", lc "言葉を習うのです。") ∈ acceptedStream tzNarau [twoSentenceChapter] [] ∧
      ∃ ch ∈ [twoSentenceChapter],
        (lc "言葉を習うのです。") ∈ sentencesOfText ch ∧ 5 ≤ (lc "言葉を習うのです。").length) := by
  have hm : lc "「おはよう」" ∈ sentencesOfText quoteChapter := by decide
  have hstream : (lc "習う", lc "言葉を習うのです。") ∈
      acceptedStream tzNarau [twoSentenceChapter] [] := by decide
  refine ⟨(c4_segmentation_amended quoteChapter).1, ⟨hm, ?_⟩, hstream, ?_⟩
  · have h := (c4_segmentation_amended quoteChapter).2.2.1 _ hm
    exact ⟨h.1, h.2⟩
  · exact (c4_segmentation_amended quoteChapter).2.2.2 tzNarau [twoSentenceChapter] []
      (lc "習う", lc "言葉を習うのです。") hstream

/-- C5: extraction never returns two identical chapter texts nor an empty
one, and two items with byte-identical trimmed text yield exactly one
chapter — for every parser and every fingerprint function (the md5
hexdigest is one such function; identical texts always fingerprint
identically). -/
theorem c5_dedup_by_fingerprint (pf : List Char → Except (List Char) HForest)
    (fp : List Char → List Char) :
    (∀ items chapters, extract_chapters_from_epub pf fp items = Except.ok chapters →
      chapters.Nodup ∧ ∀ t ∈ chapters, t ≠ []) ∧
    (∀ c tree, c ≠ [] → pf c = Except.ok tree → itemText tree ≠ [] →
      extract_chapters_from_epub pf fp [c, c] = Except.ok [itemText tree]) := by
  constructor
  · intro items chapters h
    exact extractLoop_ok_inv pf fp items [] [] chapters (by simp) List.nodup_nil (by simp) h
  · intro c tree hc hp ht
    unfold extract_chapters_from_epub
    unfold extractLoop
    rw [if_neg hc, hp]
    simp only
    rw [if_neg ht, if_neg (by simp : ¬fp (itemText tree) ∈ ([] : List (List Char)))]
    unfold extractLoop
    rw [if_neg hc, hp]
    simp only
    rw [if_neg ht,
      if_pos (by simp : fp (itemText tree) ∈ [fp (itemText tree)])]
    rfl

/-- C5 witness: two items with the identical trimmed text `あいうえお`
yield exactly one chapter, which is duplicate-free and nonempty. -/
theorem c5_dedup_witness :
    extract_chapters_from_epub parseText id [lc "あいうえお", lc "あいうえお"] =
      Except.ok [lc "あいうえお"] ∧
    ([lc "あいうえお"] : List (List Char)).Nodup ∧
    ∀ t ∈ [lc "あいうえお"], t ≠ [] := by
  have h2 := (c5_dedup_by_fingerprint parseText id).2 (lc "あいうえお")
    (forest [HNode.text (lc "あいうえお")]) (by decide) rfl (by decide)
  have h2' : extract_chapters_from_epub parseText id [lc "あいうえお", lc "あいうえお"] =
      Except.ok [lc "あいうえお"] := h2
  have h1 := (c5_dedup_by_fingerprint parseText id).1 _ _ h2'
  exact ⟨h2', h1.1, h1.2⟩

/-- C6: the `rt` reading gloss is removed before text extraction — the ruby
fragment `<ruby>漢字<rt>かんじ</rt></ruby>` extracts to exactly `漢字`,
which contains `漢字` and not `かんじ`, in `itemText` and through
`extract_chapters_from_epub` alike. -/
theorem c6_ruby_reading_stripped :
    itemText rubyFrag = lc "漢字" ∧
    extract_chapters_from_epub parseRuby id [lc "r"] = Except.ok [lc "漢字"] ∧
    containsSeq (lc "漢字") (itemText rubyFrag) = true ∧
    containsSeq (lc "かんじ") (itemText rubyFrag) = false := by
  refine ⟨by rfl, by rfl, by decide, by decide⟩

/-- C7 counterexample: with a parser that fails on the item `x` alone, a
run over `[x, あいうえお]` returns the parse error — the good item is not
extracted — while the good item alone extracts fine; a single bad content
item fails the whole run instead of being skipped. -/
theorem c7_counterexample_parse_error_aborts :
    extract_chapters_from_epub parseFail1 id [lc "x", lc "あいうえお"] =
      Except.error (lc "ParserError") ∧
    extract_chapters_from_epub parseFail1 id [lc "あいうえお"] =
      Except.ok [lc "あいうえお"] := by
  exact ⟨by rfl, by rfl⟩

/-- C7 (amended): a parse failure on any nonempty document item is not
recoverable — the error propagates out of `extract_chapters_from_epub` and
no chapter list is returned. -/
theorem c7_parse_failure_fails_run (pf : List Char → Except (List Char) HForest)
    (fp : List Char → List Char) (items : List (List Char))
    (h : ∃ c ∈ items, c ≠ [] ∧ ∃ e, pf c = Except.error e) :
    ∃ e, extract_chapters_from_epub pf fp items = Except.error e :=
  extractLoop_error_of_bad_item pf fp items [] [] h

/-- C7 witness: the amended claim at the concrete failing parser. -/
theorem c7_parse_failure_witness :
    (∃ c ∈ [lc "x", lc "あいうえお"], c ≠ [] ∧ ∃ e, parseFail1 c = Except.error e) ∧
    ∃ e, extract_chapters_from_epub parseFail1 id [lc "x", lc "あいうえお"] =
      Except.error e := by
  have hbad : ∃ c ∈ [lc "x", lc "あいうえお"], c ≠ [] ∧
      ∃ e, parseFail1 c = Except.error e :=
    ⟨lc "x", by simp, by decide, lc "ParserError", by rfl⟩
  exact ⟨hbad, c7_parse_failure_fails_run parseFail1 id [lc "x", lc "あいうえお"] hbad⟩

/-- C8 counterexample: `limit = -1` is not rejected — the upload path runs
the whole pipeline and answers 200 with a truncated list (Python slice
`[:-1]` drops the last entry), so extraction, aggregation and ranking all
execute. -/
theorem c8_counterexample_negative_limit_accepted :
    upload_epub parseText id tzPair (lc "book.epub") [sampleChapter] [] (-1) =
      Except.ok [(lc "言葉", 1, sampleChapter)] := by
  rfl

/-- C8 (amended): a negative `limit` reaches the pipeline unchecked; the
result is the sorted vocabulary with its final `-limit` entries dropped
(empty when `-limit` reaches the entry count), returned as a success. -/
theorem c8_negative_limit_truncates_from_end
    (pf : List Char → Except (List Char) HForest) (fp : List Char → List Char)
    (tz : List Char → List Morpheme) (filename : List Char)
    (items known chapters : List (List Char)) (limit : Int)
    (hf : (lc ".epub").isSuffixOf filename = true)
    (hx : extract_chapters_from_epub pf fp items = Except.ok chapters)
    (hneg : limit < 0) :
    upload_epub pf fp tz filename items known limit =
      Except.ok ((rankSort (aggregateAll tz chapters known).1).take
        ((aggregateAll tz chapters known).1.length - (-limit).toNat)) := by
  unfold upload_epub
  rw [hf]
  simp only [Bool.not_true, Bool.false_eq_true, if_false, hx]
  unfold get_vocab_with_context pySlice
  rw [if_neg (by omega : ¬(0 : Int) ≤ limit)]
  rw [show rankSort (aggregateAll tz chapters known).1 =
    ((aggregateAll tz chapters known).1).insertionSort freqGE from rfl]
  rw [List.length_insertionSort]

/-- C8 witness: the amended claim at the concrete run with `limit = -1`:
two entries aggregate, the slice keeps `2 - 1 = 1` of them. -/
theorem c8_negative_limit_witness :
    (lc ".epub").isSuffixOf (lc "book.epub") = true ∧
    extract_chapters_from_epub parseText id [sampleChapter] =
      Except.ok [sampleChapter] ∧
    (-1 : Int) < 0 ∧
    upload_epub parseText id tzPair (lc "book.epub") [sampleChapter] [] (-1) =
      Except.ok ((rankSort (aggregateAll tzPair [sampleChapter] []).1).take
        ((aggregateAll tzPair [sampleChapter] []).1.length - (-(-1 : Int)).toNat)) := by
  refine ⟨by decide, by rfl, by decide, ?_⟩
  exact c8_negative_limit_truncates_from_end parseText id tzPair (lc "book.epub")
    [sampleChapter] [] [sampleChapter] (-1) (by decide) (by rfl) (by decide)

/-- C10: every word returned by the Anki import has length at least 2,
contains a Japanese character, is none of the fixed particles, and comes
from processing the first tab-separated field of some non-blank line. -/
theorem c10_anki_words_invariant (unescape : List Char → List Char)
    (content : List Char) (w : List Char)
    (hw : w ∈ extract_words_from_anki_txt unescape content) :
    2 ≤ w.length ∧ w ∉ commonParticles ∧ (∃ c ∈ w, isJapaneseChar c = true) ∧
    ∃ line ∈ (pyStrip content).splitOn '\n',
      pyStrip line ≠ [] ∧ w ∈ ankiLineWords unescape line := by
  unfold extract_words_from_anki_txt at hw
  rw [List.mem_dedup] at hw
  obtain ⟨line, hline, hwl⟩ := List.mem_flatMap.mp hw
  have hjp : is_japanese_word w = true := by
    unfold ankiLineWords at hwl
    by_cases hb : pyStrip line = []
    · rw [if_pos hb] at hwl; cases hwl
    · rw [if_neg hb] at hwl
      simp only at hwl
      by_cases hf : pyStrip ((line.splitOn '\t').headD []) = []
      · rw [if_pos hf] at hwl; cases hwl
      · rw [if_neg hf] at hwl
        exact (List.mem_filter.mp hwl).2
  have hblank : pyStrip line ≠ [] := by
    intro hb
    unfold ankiLineWords at hwl
    rw [if_pos hb] at hwl
    cases hwl
  refine ⟨?_, ?_, ?_, line, hline, hblank, hwl⟩
  · by_cases h1 : w.length ≤ 1
    · rw [is_japanese_word, if_pos h1] at hjp; cases hjp
    · omega
  · intro hmem
    have h1 : ¬w.length ≤ 1 := by
      by_cases h1 : w.length ≤ 1
      · rw [is_japanese_word, if_pos h1] at hjp; cases hjp
      · exact h1
    rw [is_japanese_word, if_neg h1,
      if_pos (List.elem_iff.mpr hmem)] at hjp
    cases hjp
  · have h1 : ¬w.length ≤ 1 := by
      by_cases h1 : w.length ≤ 1
      · rw [is_japanese_word, if_pos h1] at hjp; cases hjp
      · exact h1
    by_cases h2 : (commonParticles.contains w) = true
    · rw [is_japanese_word, if_neg h1, if_pos h2] at hjp; cases hjp
    · rw [is_japanese_word, if_neg h1, if_neg h2] at hjp
      simpa using hjp

/-- C10 witness: the invariant evaluated on the word `日本語` extracted
from a concrete two-line export. -/
theorem c10_anki_words_witness :
    lc "日本語" ∈ extract_words_from_anki_txt id (lc "日本語\tnihongo\nの\tparticle") ∧
    (2 ≤ (lc "日本語").length ∧ lc "日本語" ∉ commonParticles ∧
      (∃ c ∈ lc "日本語", isJapaneseChar c = true) ∧
      ∃ line ∈ (pyStrip (lc "日本語\tnihongo\nの\tparticle")).splitOn '\n',
        pyStrip line ≠ [] ∧ lc "日本語" ∈ ankiLineWords id line) := by
  have hm : lc "日本語" ∈ extract_words_from_anki_txt id
      (lc "日本語\tnihongo\nの\tparticle") := by decide
  exact ⟨hm, c10_anki_words_invariant id (lc "日本語\tnihongo\nの\tparticle") (lc "日本語") hm⟩
